import Mathlib

set_option maxRecDepth 8000

/-!
Shallow embedding of `pyod/models/hbos.py` (HBOS, histogram-based outlier
detection).  Machine floats are modelled as exact rationals; `np.log2` is
modelled as `Real.logb 2`.  The fitted per-feature state (one column of
`bin_edges_` and of `hist_`) is a `FeatureHist` record.
-/

/-- Minimum of a list of rationals (the min used by `np.histogram` when it
selects the data range); junk value 0 on the empty list. -/
def listMin : List ℚ → ℚ
  | [] => 0
  | x :: xs => xs.foldl min x

/-- Maximum of a list of rationals; junk value 0 on the empty list. -/
def listMax : List ℚ → ℚ
  | [] => 0
  | x :: xs => xs.foldl max x

/-- Range used by `np.histogram`: the (min, max) of the data, widened to
(min - 0.5, max + 0.5) when all values coincide (numpy's documented
handling of a degenerate range). -/
def histRange (xs : List ℚ) : ℚ × ℚ :=
  let lo := listMin xs
  let hi := listMax xs
  if lo = hi then (lo - 1/2, hi + 1/2) else (lo, hi)

/-- The k-th bin edge for n equal-width bins over [lo, hi]. -/
def edgeAt (lo hi : ℚ) (n k : ℕ) : ℚ := lo + k * ((hi - lo) / n)

/-- The n+1 bin edges produced by `np.histogram`. -/
def binEdges (lo hi : ℚ) (n : ℕ) : List ℚ :=
  (List.range (n + 1)).map (edgeAt lo hi n)

/-- Membership of x in bin b under `np.histogram` semantics: bins are
left-closed and right-open, except the last bin, which is closed. -/
def inBin (lo hi : ℚ) (n b : ℕ) (x : ℚ) : Prop :=
  edgeAt lo hi n b ≤ x ∧
    (x < edgeAt lo hi n (b + 1) ∨ (b + 1 = n ∧ x ≤ edgeAt lo hi n n))

instance (lo hi : ℚ) (n b : ℕ) (x : ℚ) : Decidable (inBin lo hi n b x) := by
  unfold inBin; infer_instance

/-- Number of data values falling in bin b. -/
def binCount (lo hi : ℚ) (n : ℕ) (xs : List ℚ) (b : ℕ) : ℕ :=
  xs.countP fun x => decide (inBin lo hi n b x)

/-- Height of bin b under `density=True`: count / (N * width). -/
def density (lo hi : ℚ) (n : ℕ) (xs : List ℚ) (b : ℕ) : ℚ :=
  (binCount lo hi n xs b : ℚ) / ((xs.length : ℚ) * ((hi - lo) / n))

/-- Per-feature fitted state: one column of `bin_edges_` (length n_bins + 1)
and the matching column of `hist_` (length n_bins). -/
structure FeatureHist where
  edges : List ℚ
  dens : List ℚ
deriving DecidableEq

/-- Model of `np.histogram(xs, bins=nb, density=True)`; numpy raises when
the requested number of bins is not a positive integer. -/
def npHistogram (xs : List ℚ) (nb : ℤ) : Except String FeatureHist :=
  if nb < 1 then Except.error "bins must be a positive integer"
  else
    let n := nb.toNat
    let lo := (histRange xs).1
    let hi := (histRange xs).2
    Except.ok ⟨binEdges lo hi n, (List.range n).map (density lo hi n xs)⟩

/-- Model of `np.diff`. -/
def npDiff (l : List ℚ) : List ℚ := List.zipWith (fun a b => b - a) l l.tail

/-- Model of `np.sum(hist * np.diff(edges))`: total mass of a histogram. -/
def massSum (h : FeatureHist) : ℚ :=
  (List.zipWith (fun d w => d * w) h.dens (npDiff h.edges)).sum

/-- Model of `np.digitize(v, edges, right=True)` for increasing edges: the
number of edges strictly below v (hbos.py line 113). -/
def digitizeRight (edges : List ℚ) (v : ℚ) : ℕ :=
  edges.countP fun e => decide (e < v)

/-- Model of `np.log2(hist + alpha)` (hbos.py line 118): the list of per-bin
outlier scores of one feature; alpha is added before the logarithm. -/
noncomputable def outScore (dens : List ℚ) (alpha : ℚ) : List ℝ :=
  dens.map fun d => Real.logb 2 ((d + alpha : ℚ) : ℝ)

/-- Model of `np.min` over a nonempty list of reals; junk value 0 on []. -/
noncomputable def listMinR : List ℝ → ℝ
  | [] => 0
  | x :: xs => xs.foldl min x

/-- Per-feature, per-sample score assignment of
`HBOS._calculate_outlier_scores` (hbos.py lines 113-148). -/
noncomputable def featureScore (h : FeatureHist) (nb : ℤ) (alpha tol v : ℚ) : ℝ :=
  let binInd := digitizeRight h.edges v
  let os := outScore h.dens alpha
  if binInd = 0 then
    let dist := h.edges.getD 0 0 - v
    let binWidth := h.edges.getD 1 0 - h.edges.getD 0 0
    if dist ≤ binWidth * tol then os.getD 0 0 else listMinR os
  else if (binInd : ℤ) = nb + 1 then
    let dist := v - h.edges.getD (h.edges.length - 1) 0
    let binWidth :=
      h.edges.getD (h.edges.length - 1) 0 - h.edges.getD (h.edges.length - 2) 0
    if dist ≤ binWidth * tol then os.getD (nb - 1).toNat 0 else listMinR os
  else os.getD (binInd - 1) 0

/-- Modelled from the spec: sklearn's `check_array` (the external validator
called by fit and decision_function, not in src) accepts exactly the
two-dimensional, numeric, non-empty matrices: at least one row, all rows of
one equal positive length. -/
def checkArray (X : List (List ℚ)) : Bool :=
  match X with
  | [] => false
  | r :: rs => decide (1 ≤ r.length) && rs.all fun q => decide (q.length = r.length)

/-- The columns of a row-major matrix (the feature slices X[:, i]). -/
def columns (X : List (List ℚ)) : List (List ℚ) :=
  (List.range (X.headD []).length).map fun i => X.map fun r => r.getD i 0

/-- One iteration of the fit loop (hbos.py lines 69-74): `np.histogram`
followed by the assertion
`np.isclose(1, np.sum(hist * np.diff(edges)), atol=0.1)`
(absolute tolerance 0.1 plus numpy's default relative tolerance 1e-05). -/
def histChecked (xs : List ℚ) (nb : ℤ) : Except String FeatureHist :=
  match npHistogram xs nb with
  | Except.error e => Except.error e
  | Except.ok h =>
      if |1 - massSum h| ≤ 1/10 + |massSum h| / 100000 then Except.ok h
      else Except.error "assert"

/-- The fit loop over a list of feature columns, stopping at the first
error, exactly as the Python for-loop propagates the first exception. -/
def histsFor (nb : ℤ) : List (List ℚ) → Except String (List FeatureHist)
  | [] => Except.ok []
  | xs :: rest =>
      match histChecked xs nb with
      | Except.error e => Except.error e
      | Except.ok h =>
          match histsFor nb rest with
          | Except.error e => Except.error e
          | Except.ok hs => Except.ok (h :: hs)

/-- The fit loop over all features of the training matrix. -/
def buildHists (X : List (List ℚ)) (nb : ℤ) : Except String (List FeatureHist) :=
  histsFor nb (columns X)

/-- Fitted-state attributes of an HBOS model: `hist_` together with
`bin_edges_` (as a list of per-feature records), and `decision_scores_`. -/
structure ModelState where
  hists : Option (List FeatureHist)
  decision_scores_ : Option (List ℝ)

/-- Per-sample decision score: minus the sum, over the first nf features, of
the per-feature scores (`np.sum(outlier_scores, axis=1) * -1`). -/
noncomputable def rowScore (hs : List FeatureHist) (nb : ℤ) (alpha tol : ℚ)
    (nf : ℕ) (row : List ℚ) : ℝ :=
  -(((List.range nf).map fun i =>
      featureScore (hs.getD i ⟨[], []⟩) nb alpha tol (row.getD i 0)).sum)

/-- Matrix-level scoring: `_calculate_outlier_scores` composed with the
row sum and the sign flip used by both callers.  The feature loop runs over
the query's feature count, so a query with more features than were fitted
hits a missing column of `bin_edges_` (an IndexError); a query with fewer
features is scored over its own features only. -/
noncomputable def calcScores (hs : List FeatureHist) (nb : ℤ) (alpha tol : ℚ)
    (X : List (List ℚ)) : Except String (List ℝ) :=
  let nf := (X.headD []).length
  if hs.length < nf then Except.error "index out of bounds"
  else Except.ok (X.map (rowScore hs nb alpha tol nf))

/-- Model of `HBOS.fit` (hbos.py lines 58-81): validate the matrix, zero out
`hist_` and `bin_edges_`, build the histograms feature by feature, then
score the training data and store the negated sums.  The zero matrices
assigned before the loop remain behind when histogram construction fails. -/
noncomputable def fit (nb : ℤ) (alpha tol : ℚ) (st : ModelState)
    (X : List (List ℚ)) : Except String Unit × ModelState :=
  if checkArray X = false then (Except.error "input", st)
  else
    let zeroed : ModelState :=
      { st with hists := some (List.replicate (X.headD []).length
          ⟨List.replicate (nb.toNat + 1) 0, List.replicate nb.toNat 0⟩) }
    match buildHists X nb with
    | Except.error e => (Except.error e, zeroed)
    | Except.ok hs =>
        match calcScores hs nb alpha tol X with
        | Except.error e => (Except.error e, { zeroed with hists := some hs })
        | Except.ok scores =>
            (Except.ok (), { hists := some hs, decision_scores_ := some scores })

/-- Model of `HBOS.decision_function` (hbos.py lines 83-89):
`check_is_fitted`, then `check_array`, then scoring. -/
noncomputable def decision_function (nb : ℤ) (alpha tol : ℚ) (st : ModelState)
    (X : List (List ℚ)) : Except String (List ℝ) :=
  match st.hists with
  | none => Except.error "not fitted"
  | some hs =>
      if checkArray X = false then Except.error "input"
      else calcScores hs nb alpha tol X

/-- Modelled from the spec: `check_parameter` (pyod.utils.utility, not in
src) raises a configuration error exactly when the value lies outside the
open interval (low, high). -/
def check_parameter (v low high : ℚ) : Except String Unit :=
  if low < v ∧ v < high then Except.ok () else Except.error "config"

/-- Model of `HBOS.__init__` (hbos.py lines 48-56): store n_bins, alpha and
tol, and validate alpha and tol with `check_parameter`.  No check is applied
to n_bins. -/
def hbosInit (nb : ℤ) (alpha tol : ℚ) : Except String (ℤ × ℚ × ℚ) :=
  match check_parameter alpha 0 1 with
  | Except.error e => Except.error e
  | Except.ok _ =>
      match check_parameter tol 0 1 with
      | Except.error e => Except.error e
      | Except.ok _ => Except.ok (nb, alpha, tol)

/-! Helper lemmas about list minima, maxima and counting. -/

lemma foldlMin_le (l : List ℚ) : ∀ a : ℚ, l.foldl min a ≤ a := by
  induction l with
  | nil => intro a; exact le_refl a
  | cons b l ih => intro a; exact le_trans (ih (min a b)) (min_le_left a b)

lemma foldlMin_le_mem (l : List ℚ) : ∀ (a x : ℚ), x ∈ l → l.foldl min a ≤ x := by
  induction l with
  | nil => intro a x hx; cases hx
  | cons b l ih =>
      intro a x hx
      rcases List.mem_cons.mp hx with h | h
      · subst h; exact le_trans (foldlMin_le l (min a x)) (min_le_right a x)
      · exact ih (min a b) x h

lemma foldlMin_mem (l : List ℚ) : ∀ a : ℚ, l.foldl min a = a ∨ l.foldl min a ∈ l := by
  induction l with
  | nil => intro a; exact Or.inl rfl
  | cons b l ih =>
      intro a
      rcases ih (min a b) with h | h
      · rcases min_cases a b with ⟨h2, _⟩ | ⟨h2, _⟩
        · exact Or.inl (by rw [List.foldl_cons, h, h2])
        · exact Or.inr (by rw [List.foldl_cons, h, h2]; exact List.mem_cons_self b l)
      · exact Or.inr (List.mem_cons_of_mem b h)

lemma listMin_le (l : List ℚ) (x : ℚ) (hx : x ∈ l) : listMin l ≤ x := by
  cases l with
  | nil => cases hx
  | cons a l =>
      rcases List.mem_cons.mp hx with h | h
      · subst h; exact foldlMin_le l x
      · exact foldlMin_le_mem l a x h

lemma listMin_mem (l : List ℚ) (h : l ≠ []) : listMin l ∈ l := by
  cases l with
  | nil => exact absurd rfl h
  | cons a l =>
      rcases foldlMin_mem l a with h2 | h2
      · rw [listMin, h2]; exact List.mem_cons_self a l
      · exact List.mem_cons_of_mem a h2

lemma le_foldlMax (l : List ℚ) : ∀ a : ℚ, a ≤ l.foldl max a := by
  induction l with
  | nil => intro a; exact le_refl a
  | cons b l ih => intro a; exact le_trans (le_max_left a b) (ih (max a b))

lemma le_foldlMax_mem (l : List ℚ) : ∀ (a x : ℚ), x ∈ l → x ≤ l.foldl max a := by
  induction l with
  | nil => intro a x hx; cases hx
  | cons b l ih =>
      intro a x hx
      rcases List.mem_cons.mp hx with h | h
      · subst h; exact le_trans (le_max_right a x) (le_foldlMax l (max a x))
      · exact ih (max a b) x h

lemma le_listMax (l : List ℚ) (x : ℚ) (hx : x ∈ l) : x ≤ listMax l := by
  cases l with
  | nil => cases hx
  | cons a l =>
      rcases List.mem_cons.mp hx with h | h
      · subst h; exact le_foldlMax l x
      · exact le_foldlMax_mem l a x h

lemma countP_split (p : ℚ → Bool) (l : List ℚ) :
    ∀ m : ℕ, m ≤ l.length →
      (∀ i (hi : i < l.length), i < m → p (l.get ⟨i, hi⟩) = true) →
      (∀ i (hi : i < l.length), m ≤ i → p (l.get ⟨i, hi⟩) = false) →
      l.countP p = m := by
  induction l with
  | nil =>
      intro m hm _ _
      simp only [List.length_nil, Nat.le_zero] at hm
      simp [hm]
  | cons a l ih =>
      intro m hm h1 h2
      cases m with
      | zero =>
          have ha : p a = false := h2 0 (by simp) (Nat.zero_le 0)
          have hl : l.countP p = 0 := by
            refine ih 0 (Nat.zero_le _) (by intro i hi h; omega) ?_
            intro i hi _
            have := h2 (i + 1) (by simpa using Nat.succ_lt_succ hi) (Nat.zero_le _)
            simpa using this
          simp [List.countP_cons, ha, hl]
      | succ m =>
          have ha : p a = true := h1 0 (by simp) (Nat.succ_pos m)
          have hl : l.countP p = m := by
            refine ih m (by simpa [Nat.succ_le_succ_iff] using hm) ?_ ?_
            · intro i hi him
              have := h1 (i + 1) (by simpa using Nat.succ_lt_succ hi) (by omega)
              simpa using this
            · intro i hi him
              have := h2 (i + 1) (by simpa using Nat.succ_lt_succ hi) (by omega)
              simpa using this
          simp [List.countP_cons, ha, hl]

/-! Sorted-edge and digitize lemmas. -/

lemma chain_get_lt (l : List ℚ) (hS : List.Chain' (· < ·) l) (i j : ℕ)
    (hij : i < j) (hj : j < l.length) :
    l.get ⟨i, lt_trans hij hj⟩ < l.get ⟨j, hj⟩ := by
  have hp : List.Pairwise (· < ·) l := List.chain'_iff_pairwise.mp hS
  exact List.pairwise_iff_get.mp hp ⟨i, lt_trans hij hj⟩ ⟨j, hj⟩ hij

lemma digitize_le_length (edges : List ℚ) (v : ℚ) :
    digitizeRight edges v ≤ edges.length :=
  List.countP_le_length _

lemma digitize_below (edges : List ℚ) (hS : List.Chain' (· < ·) edges) (v : ℚ)
    (hne : edges ≠ []) (hv : v ≤ edges.getD 0 0) : digitizeRight edges v = 0 := by
  have h0 : 0 < edges.length := List.length_pos.mpr hne
  refine countP_split _ edges 0 (Nat.zero_le _) (by intro i hi h; omega) ?_
  intro i hi _
  have hle : edges.getD 0 0 ≤ edges.get ⟨i, hi⟩ := by
    rcases Nat.eq_zero_or_pos i with h | h
    · subst h; rw [List.getD_eq_get edges 0 h0]
    · rw [List.getD_eq_get edges 0 h0]
      exact le_of_lt (chain_get_lt edges hS 0 i h hi)
  simp only [decide_eq_false_iff_not, not_lt]
  exact le_trans hv hle

lemma digitize_mid (edges : List ℚ) (hS : List.Chain' (· < ·) edges) (v : ℚ)
    (b : ℕ) (hb : b + 1 < edges.length)
    (h1 : edges.getD b 0 < v) (h2 : v ≤ edges.getD (b + 1) 0) :
    digitizeRight edges v = b + 1 := by
  have hbl : b < edges.length := lt_trans (Nat.lt_succ_self b) hb
  rw [List.getD_eq_get edges 0 hbl] at h1
  rw [List.getD_eq_get edges 0 hb] at h2
  refine countP_split _ edges (b + 1) hb.le ?_ ?_
  · intro i hi him
    have hle : edges.get ⟨i, hi⟩ ≤ edges.get ⟨b, hbl⟩ := by
      rcases Nat.lt_succ_iff_lt_or_eq.mp him with h | h
      · exact le_of_lt (chain_get_lt edges hS i b h hbl)
      · subst h; exact le_refl _
    simp only [decide_eq_true_eq]
    exact lt_of_le_of_lt hle h1
  · intro i hi him
    have hle : edges.get ⟨b + 1, hb⟩ ≤ edges.get ⟨i, hi⟩ := by
      rcases Nat.eq_or_lt_of_le him with h | h
      · subst h; exact le_refl _
      · exact le_of_lt (chain_get_lt edges hS (b + 1) i h hi)
    simp only [decide_eq_false_iff_not, not_lt]
    exact le_trans h2 hle

lemma digitize_above (edges : List ℚ) (hS : List.Chain' (· < ·) edges) (v : ℚ)
    (hne : edges ≠ []) (hv : edges.getD (edges.length - 1) 0 < v) :
    digitizeRight edges v = edges.length := by
  have h0 : 0 < edges.length := List.length_pos.mpr hne
  have hlast : edges.length - 1 < edges.length := by omega
  rw [List.getD_eq_get edges 0 hlast] at hv
  refine countP_split _ edges edges.length (le_refl _) ?_ (by intro i hi h; omega)
  intro i hi _
  have hle : edges.get ⟨i, hi⟩ ≤ edges.get ⟨edges.length - 1, hlast⟩ := by
    rcases Nat.lt_or_ge i (edges.length - 1) with h | h
    · exact le_of_lt (chain_get_lt edges hS i (edges.length - 1) h hlast)
    · have : i = edges.length - 1 := by omega
      subst this; exact le_refl _
  simp only [decide_eq_true_eq]
  exact lt_of_le_of_lt hle hv

/-! Lemmas about the per-bin log scores. -/

lemma outScore_length (dens : List ℚ) (α : ℚ) :
    (outScore dens α).length = dens.length := by
  simp [outScore]

lemma outScore_getD (dens : List ℚ) (α : ℚ) (b : ℕ) (hb : b < dens.length) :
    (outScore dens α).getD b 0 = Real.logb 2 ((dens.getD b 0 + α : ℚ) : ℝ) := by
  rw [List.getD_eq_getElem _ _ (by simpa [outScore] using hb),
    List.getD_eq_getElem _ _ hb]
  simp [outScore]

lemma logbq_le_logbq (a b α : ℚ) (ha : 0 ≤ a) (hα : 0 < α) (hab : a ≤ b) :
    Real.logb 2 ((a + α : ℚ) : ℝ) ≤ Real.logb 2 ((b + α : ℚ) : ℝ) := by
  apply Real.logb_le_logb_of_le one_lt_two
  · exact_mod_cast show (0 : ℚ) < a + α by linarith
  · exact_mod_cast show (a + α : ℚ) ≤ b + α by linarith

lemma logbq_lt_logbq (a b α : ℚ) (ha : 0 ≤ a) (hα : 0 < α) (hab : a < b) :
    Real.logb 2 ((a + α : ℚ) : ℝ) < Real.logb 2 ((b + α : ℚ) : ℝ) := by
  apply Real.logb_lt_logb one_lt_two
  · exact_mod_cast show (0 : ℚ) < a + α by linarith
  · exact_mod_cast show (a + α : ℚ) < b + α by linarith

lemma foldlMin_outScore (α : ℚ) (hα : 0 < α) (l : List ℚ) :
    ∀ a : ℚ, 0 ≤ a → (∀ d ∈ l, 0 ≤ d) →
      (l.map fun d => Real.logb 2 ((d + α : ℚ) : ℝ)).foldl min
          (Real.logb 2 ((a + α : ℚ) : ℝ))
        = Real.logb 2 ((l.foldl min a + α : ℚ) : ℝ) := by
  induction l with
  | nil => intro a _ _; rfl
  | cons b l ih =>
      intro a ha hnn
      have hb : 0 ≤ b := hnn b (List.mem_cons_self b l)
      have hmin : min (Real.logb 2 ((a + α : ℚ) : ℝ)) (Real.logb 2 ((b + α : ℚ) : ℝ))
          = Real.logb 2 ((min a b + α : ℚ) : ℝ) := by
        rcases le_total a b with h | h
        · rw [min_eq_left (logbq_le_logbq a b α ha hα h), min_eq_left h]
        · rw [min_eq_right (logbq_le_logbq b a α hb hα h), min_eq_right h]
      simp only [List.map_cons, List.foldl_cons, hmin]
      exact ih (min a b) (le_min ha hb) fun d hd => hnn d (List.mem_cons_of_mem b hd)

lemma listMinR_outScore (dens : List ℚ) (α : ℚ) (hne : dens ≠ [])
    (hnn : ∀ d ∈ dens, 0 ≤ d) (hα : 0 < α) :
    listMinR (outScore dens α) = Real.logb 2 ((listMin dens + α : ℚ) : ℝ) := by
  cases dens with
  | nil => exact absurd rfl hne
  | cons a l =>
      have ha : 0 ≤ a := hnn a (List.mem_cons_self a l)
      simp only [outScore, List.map_cons, listMinR, listMin]
      exact foldlMin_outScore α hα l a ha fun d hd => hnn d (List.mem_cons_of_mem a hd)

/-! Branch lemmas for the per-feature score. -/

lemma edges_ne_nil (h : FeatureHist) (nb : ℤ)
    (hE : h.edges.length = nb.toNat + 1) : h.edges ≠ [] := by
  intro hc; rw [hc] at hE; simp at hE

lemma fs_below_near (h : FeatureHist) (nb : ℤ) (α tol v : ℚ) (hnb : 1 ≤ nb)
    (hE : h.edges.length = nb.toNat + 1) (hD : h.dens.length = nb.toNat)
    (hS : List.Chain' (· < ·) h.edges)
    (hv : v < h.edges.getD 0 0)
    (hnear : h.edges.getD 0 0 - v ≤ (h.edges.getD 1 0 - h.edges.getD 0 0) * tol) :
    featureScore h nb α tol v = Real.logb 2 ((h.dens.getD 0 0 + α : ℚ) : ℝ) := by
  have h0 : digitizeRight h.edges v = 0 :=
    digitize_below h.edges hS v (edges_ne_nil h nb hE) (le_of_lt hv)
  simp only [featureScore, h0, if_pos rfl, if_pos hnear]
  exact outScore_getD h.dens α 0 (by omega)

lemma fs_below_far (h : FeatureHist) (nb : ℤ) (α tol v : ℚ) (hnb : 1 ≤ nb)
    (hE : h.edges.length = nb.toNat + 1) (hD : h.dens.length = nb.toNat)
    (hS : List.Chain' (· < ·) h.edges) (hnn : ∀ d ∈ h.dens, 0 ≤ d) (hα : 0 < α)
    (hv : v < h.edges.getD 0 0)
    (hfar : ¬ h.edges.getD 0 0 - v ≤ (h.edges.getD 1 0 - h.edges.getD 0 0) * tol) :
    featureScore h nb α tol v = Real.logb 2 ((listMin h.dens + α : ℚ) : ℝ) := by
  have h0 : digitizeRight h.edges v = 0 :=
    digitize_below h.edges hS v (edges_ne_nil h nb hE) (le_of_lt hv)
  simp only [featureScore, h0, if_pos rfl, if_neg hfar]
  exact listMinR_outScore h.dens α (by intro hc; rw [hc] at hD; simp at hD; omega) hnn hα

lemma fs_inbin (h : FeatureHist) (nb : ℤ) (α tol v : ℚ) (hnb : 1 ≤ nb)
    (hE : h.edges.length = nb.toNat + 1) (hD : h.dens.length = nb.toNat)
    (hS : List.Chain' (· < ·) h.edges) (b : ℕ) (hb : b < nb.toNat)
    (h1 : h.edges.getD b 0 < v) (h2 : v ≤ h.edges.getD (b + 1) 0) :
    featureScore h nb α tol v = Real.logb 2 ((h.dens.getD b 0 + α : ℚ) : ℝ) := by
  have hbi : digitizeRight h.edges v = b + 1 :=
    digitize_mid h.edges hS v b (by omega) h1 h2
  simp only [featureScore, hbi]
  rw [if_neg (by omega), if_neg (by intro hc; omega)]
  simp only [Nat.add_sub_cancel]
  exact outScore_getD h.dens α b (by omega)

lemma fs_above_near (h : FeatureHist) (nb : ℤ) (α tol v : ℚ) (hnb : 1 ≤ nb)
    (hE : h.edges.length = nb.toNat + 1) (hD : h.dens.length = nb.toNat)
    (hS : List.Chain' (· < ·) h.edges)
    (hv : h.edges.getD nb.toNat 0 < v)
    (hnear : v - h.edges.getD nb.toNat 0
        ≤ (h.edges.getD nb.toNat 0 - h.edges.getD (nb.toNat - 1) 0) * tol) :
    featureScore h nb α tol v
      = Real.logb 2 ((h.dens.getD (nb.toNat - 1) 0 + α : ℚ) : ℝ) := by
  have hlast : h.edges.length - 1 = nb.toNat := by omega
  have hbi : digitizeRight h.edges v = h.edges.length := by
    refine digitize_above h.edges hS v (edges_ne_nil h nb hE) ?_
    rw [hlast]; exact hv
  have htn : (nb - 1).toNat = nb.toNat - 1 := by omega
  simp only [featureScore, hbi, hlast, hE, Nat.add_sub_cancel]
  rw [if_neg (by omega), if_pos (by omega),
    show nb.toNat + 1 - 2 = nb.toNat - 1 by omega, if_pos hnear, htn]
  exact outScore_getD h.dens α (nb.toNat - 1) (by omega)

lemma fs_above_far (h : FeatureHist) (nb : ℤ) (α tol v : ℚ) (hnb : 1 ≤ nb)
    (hE : h.edges.length = nb.toNat + 1) (hD : h.dens.length = nb.toNat)
    (hS : List.Chain' (· < ·) h.edges) (hnn : ∀ d ∈ h.dens, 0 ≤ d) (hα : 0 < α)
    (hv : h.edges.getD nb.toNat 0 < v)
    (hfar : ¬ v - h.edges.getD nb.toNat 0
        ≤ (h.edges.getD nb.toNat 0 - h.edges.getD (nb.toNat - 1) 0) * tol) :
    featureScore h nb α tol v = Real.logb 2 ((listMin h.dens + α : ℚ) : ℝ) := by
  have hlast : h.edges.length - 1 = nb.toNat := by omega
  have hbi : digitizeRight h.edges v = h.edges.length := by
    refine digitize_above h.edges hS v (edges_ne_nil h nb hE) ?_
    rw [hlast]; exact hv
  simp only [featureScore, hbi, hlast, hE, Nat.add_sub_cancel]
  rw [if_neg (by omega), if_pos (by omega),
    show nb.toNat + 1 - 2 = nb.toNat - 1 by omega, if_neg hfar]
  exact listMinR_outScore h.dens α (by intro hc; rw [hc] at hD; simp at hD; omega) hnn hα

/-! Histogram mass lemmas: each sample lands in exactly one bin, so the
densities integrate to exactly 1. -/

lemma edgeAt_def (lo hi : ℚ) (n k : ℕ) :
    edgeAt lo hi n k = lo + k * ((hi - lo) / n) := rfl

lemma edgeAt_le_edgeAt (lo hi : ℚ) (n : ℕ) (hw : 0 ≤ (hi - lo) / n)
    (i j : ℕ) (hij : i ≤ j) : edgeAt lo hi n i ≤ edgeAt lo hi n j := by
  rw [edgeAt_def, edgeAt_def]
  have hq : (i : ℚ) ≤ (j : ℚ) := by exact_mod_cast hij
  nlinarith [mul_le_mul_of_nonneg_right hq hw]

lemma inBin_disjoint (lo hi : ℚ) (n : ℕ) (x : ℚ) (hw : 0 < (hi - lo) / n)
    (b1 b2 : ℕ) (h2 : b2 < n) (hlt : b1 < b2)
    (hb1 : inBin lo hi n b1 x) (hb2 : inBin lo hi n b2 x) : False := by
  rcases hb1.2 with h | h
  · have hle : edgeAt lo hi n (b1 + 1) ≤ edgeAt lo hi n b2 :=
      edgeAt_le_edgeAt lo hi n (le_of_lt hw) _ _ (by omega)
    have := hb2.1
    linarith
  · rcases h with ⟨h, _⟩; omega

lemma inBin_exists (lo hi : ℚ) (n : ℕ) (x : ℚ) (hn : 1 ≤ n)
    (hw : 0 < (hi - lo) / n) (hx1 : lo ≤ x) (hx2 : x ≤ hi) :
    ∃ b, b < n ∧ inBin lo hi n b x := by
  have hnq : (0 : ℚ) < n := by exact_mod_cast hn
  have hnw : (n : ℚ) * ((hi - lo) / n) = hi - lo := by field_simp
  have hs0 : 0 ≤ x - lo := by linarith
  have hsn : x - lo ≤ (n : ℚ) * ((hi - lo) / n) := by rw [hnw]; linarith
  have hk0 : 0 ≤ ⌊(x - lo) / ((hi - lo) / n)⌋ :=
    Int.floor_nonneg.mpr (div_nonneg hs0 (le_of_lt hw))
  have hkmul : (⌊(x - lo) / ((hi - lo) / n)⌋ : ℚ) * ((hi - lo) / n) ≤ x - lo :=
    (le_div_iff hw).mp (Int.floor_le _)
  have hkmul2 : x - lo < ((⌊(x - lo) / ((hi - lo) / n)⌋ : ℚ) + 1) * ((hi - lo) / n) :=
    (div_lt_iff hw).mp (Int.lt_floor_add_one _)
  rcases Nat.lt_or_ge (⌊(x - lo) / ((hi - lo) / n)⌋).toNat n with hcase | hcase
  · refine ⟨(⌊(x - lo) / ((hi - lo) / n)⌋).toNat, hcase, ?_, Or.inl ?_⟩
    · rw [edgeAt_def]
      have hcast : (((⌊(x - lo) / ((hi - lo) / n)⌋).toNat : ℕ) : ℚ)
          = ((⌊(x - lo) / ((hi - lo) / n)⌋ : ℤ) : ℚ) := by
        exact_mod_cast Int.toNat_of_nonneg hk0
      rw [hcast]; linarith
    · rw [edgeAt_def]
      have hcast2 : (((⌊(x - lo) / ((hi - lo) / n)⌋).toNat : ℕ) : ℚ)
          = ((⌊(x - lo) / ((hi - lo) / n)⌋ : ℤ) : ℚ) := by
        exact_mod_cast Int.toNat_of_nonneg hk0
      have hcast : ((((⌊(x - lo) / ((hi - lo) / n)⌋).toNat + 1 : ℕ)) : ℚ)
          = ((⌊(x - lo) / ((hi - lo) / n)⌋ : ℤ) : ℚ) + 1 := by
        rw [Nat.cast_add, Nat.cast_one, hcast2]
      rw [hcast]; linarith
  · have hkn : ((n : ℤ) : ℚ) ≤ (⌊(x - lo) / ((hi - lo) / n)⌋ : ℚ) := by
      exact_mod_cast show (n : ℤ) ≤ ⌊(x - lo) / ((hi - lo) / n)⌋ by omega
    have hxs : (n : ℚ) * ((hi - lo) / n) ≤ x - lo := by
      have := mul_le_mul_of_nonneg_right hkn (le_of_lt hw)
      push_cast at this ⊢
      linarith [hkmul]
    have hxeq : x - lo = (n : ℚ) * ((hi - lo) / n) := le_antisymm hsn hxs
    have hc1 : ((n - 1 : ℕ) : ℚ) = (n : ℚ) - 1 := by
      push_cast [Nat.cast_sub hn]; ring
    refine ⟨n - 1, by omega, ?_, Or.inr ⟨by omega, ?_⟩⟩
    · rw [edgeAt_def, hc1]; nlinarith
    · rw [edgeAt_def]; linarith

lemma card_filter_inBin (lo hi : ℚ) (n : ℕ) (x : ℚ) (hn : 1 ≤ n)
    (hw : 0 < (hi - lo) / n) (hx1 : lo ≤ x) (hx2 : x ≤ hi) :
    (Finset.filter (fun b => inBin lo hi n b x) (Finset.range n)).card = 1 := by
  obtain ⟨b0, hb0n, hb0⟩ := inBin_exists lo hi n x hn hw hx1 hx2
  rw [Finset.card_eq_one]
  refine ⟨b0, ?_⟩
  ext b
  simp only [Finset.mem_filter, Finset.mem_range, Finset.mem_singleton]
  constructor
  · rintro ⟨hbn, hb⟩
    rcases Nat.lt_trichotomy b b0 with h | h | h
    · exact (inBin_disjoint lo hi n x hw b b0 hb0n h hb hb0).elim
    · exact h
    · exact (inBin_disjoint lo hi n x hw b0 b hbn h hb0 hb).elim
  · rintro rfl; exact ⟨hb0n, hb0⟩

lemma sum_binCount (lo hi : ℚ) (n : ℕ) (hn : 1 ≤ n) (hw : 0 < (hi - lo) / n) :
    ∀ xs : List ℚ, (∀ x ∈ xs, lo ≤ x ∧ x ≤ hi) →
      Finset.sum (Finset.range n) (fun b => binCount lo hi n xs b) = xs.length := by
  intro xs
  induction xs with
  | nil => intro _; simp [binCount]
  | cons x xs ih =>
      intro hbound
      have hx := hbound x (List.mem_cons_self x xs)
      have hxs : ∀ y ∈ xs, lo ≤ y ∧ y ≤ hi :=
        fun y hy => hbound y (List.mem_cons_of_mem x hy)
      have hcons : ∀ b, binCount lo hi n (x :: xs) b
          = binCount lo hi n xs b + if inBin lo hi n b x then 1 else 0 := by
        intro b; simp [binCount, List.countP_cons]
      simp only [hcons]
      rw [Finset.sum_add_distrib, ih hxs,
        show Finset.sum (Finset.range n) (fun b => if inBin lo hi n b x then 1 else 0)
            = (Finset.filter (fun b => inBin lo hi n b x) (Finset.range n)).card from
          (Finset.card_filter _ _).symm,
        card_filter_inBin lo hi n x hn hw hx.1 hx.2]
      simp

lemma npDiff_binEdges (lo hi : ℚ) (n : ℕ) :
    npDiff (binEdges lo hi n) = List.replicate n ((hi - lo) / n) := by
  apply List.ext_getElem
  · simp [npDiff, binEdges]
  · intro i h1 h2
    simp only [npDiff, binEdges, List.getElem_zipWith, List.getElem_tail,
      List.getElem_map, List.getElem_range, List.getElem_replicate]
    rw [edgeAt_def, edgeAt_def]
    push_cast
    ring

lemma zipWith_mul_replicate (f : ℕ → ℚ) (n : ℕ) (w : ℚ) :
    List.zipWith (fun d ww => d * ww) ((List.range n).map f) (List.replicate n w)
      = (List.range n).map fun b => f b * w := by
  apply List.ext_getElem
  · simp
  · intro i h1 h2
    simp [List.getElem_zipWith]

lemma sum_map_range (f : ℕ → ℚ) (n : ℕ) :
    ((List.range n).map f).sum = Finset.sum (Finset.range n) f := by
  induction n with
  | zero => simp
  | succ n ih =>
      rw [List.range_succ, List.map_append, List.sum_append,
        Finset.sum_range_succ, ih]
      simp

lemma histRange_spec (xs : List ℚ) (hne : xs ≠ []) :
    (histRange xs).1 < (histRange xs).2 ∧
      ∀ x ∈ xs, (histRange xs).1 ≤ x ∧ x ≤ (histRange xs).2 := by
  unfold histRange
  rcases eq_or_ne (listMin xs) (listMax xs) with heq | hne2
  · rw [if_pos heq]
    refine ⟨by simp only; linarith, ?_⟩
    intro x hx
    have h1 := listMin_le xs x hx
    have h2 := le_listMax xs x hx
    exact ⟨by simp only; linarith, by simp only; linarith⟩
  · rw [if_neg hne2]
    obtain ⟨y, hy⟩ := List.exists_mem_of_ne_nil xs hne
    have h1 := listMin_le xs y hy
    have h2 := le_listMax xs y hy
    exact ⟨lt_of_le_of_ne (le_trans h1 h2) hne2,
      fun x hx => ⟨listMin_le xs x hx, le_listMax xs x hx⟩⟩

lemma massSum_npHistogram (xs : List ℚ) (nb : ℤ) (hne : xs ≠ [])
    (fh : FeatureHist) (hok : npHistogram xs nb = Except.ok fh) :
    massSum fh = 1 := by
  unfold npHistogram at hok
  by_cases hnb : nb < 1
  · rw [if_pos hnb] at hok; cases hok
  · rw [if_neg hnb] at hok
    simp only [Except.ok.injEq] at hok
    subst hok
    obtain ⟨hlohi, hbound⟩ := histRange_spec xs hne
    have hn1 : 1 ≤ nb.toNat := by omega
    have hnq : (0 : ℚ) < (nb.toNat : ℚ) := by exact_mod_cast hn1
    have hwpos : 0 < ((histRange xs).2 - (histRange xs).1) / (nb.toNat : ℚ) :=
      div_pos (by linarith) hnq
    have hN : (0 : ℚ) < (xs.length : ℚ) := by
      have : 0 < xs.length := List.length_pos.mpr hne
      exact_mod_cast this
    unfold massSum
    simp only
    rw [npDiff_binEdges, zipWith_mul_replicate, sum_map_range]
    have hpoint : ∀ b ∈ Finset.range nb.toNat,
        density (histRange xs).1 (histRange xs).2 nb.toNat xs b
            * (((histRange xs).2 - (histRange xs).1) / (nb.toNat : ℚ))
          = (binCount (histRange xs).1 (histRange xs).2 nb.toNat xs b : ℚ)
              / (xs.length : ℚ) := by
      intro b _
      unfold density
      rw [div_mul_eq_mul_div, mul_comm ((xs.length : ℚ)) _, ← div_div,
        mul_div_assoc, div_self (ne_of_gt hwpos), mul_one]
    rw [Finset.sum_congr rfl hpoint, ← Finset.sum_div, ← Nat.cast_sum,
      sum_binCount _ _ _ hn1 hwpos xs hbound, div_self (ne_of_gt hN)]

/-! Fit-level lemmas. -/

lemma columns_length (X : List (List ℚ)) :
    (columns X).length = (X.headD []).length := by
  simp [columns]

lemma columns_mem_ne_nil (X : List (List ℚ)) (hne : X ≠ []) :
    ∀ xs ∈ columns X, xs ≠ [] := by
  intro xs hxs
  simp only [columns, List.mem_map] at hxs
  obtain ⟨i, _, rfl⟩ := hxs
  simpa using hne

lemma histChecked_ok (xs : List ℚ) (nb : ℤ) (hne : xs ≠ []) (hnb : 1 ≤ nb) :
    ∃ fh, histChecked xs nb = Except.ok fh ∧ massSum fh = 1 := by
  have hok : npHistogram xs nb
      = Except.ok ⟨binEdges (histRange xs).1 (histRange xs).2 nb.toNat,
          (List.range nb.toNat).map
            (density (histRange xs).1 (histRange xs).2 nb.toNat xs)⟩ := by
    unfold npHistogram
    rw [if_neg (by omega)]
  have hmass := massSum_npHistogram xs nb hne _ hok
  refine ⟨_, ?_, hmass⟩
  unfold histChecked
  simp only [hok, hmass]
  rw [if_pos (by norm_num)]

lemma histsFor_ok (nb : ℤ) (hnb : 1 ≤ nb) :
    ∀ cols : List (List ℚ), (∀ xs ∈ cols, xs ≠ []) →
      ∃ hs, histsFor nb cols = Except.ok hs ∧ hs.length = cols.length ∧
        ∀ fh ∈ hs, massSum fh = 1 := by
  intro cols
  induction cols with
  | nil => intro _; exact ⟨[], rfl, rfl, by intro fh hfh; cases hfh⟩
  | cons xs rest ih =>
      intro hall
      obtain ⟨fh, hfh, hmass⟩ :=
        histChecked_ok xs nb (hall xs (List.mem_cons_self xs rest)) hnb
      obtain ⟨hs, hhs, hlen, hmassall⟩ :=
        ih fun y hy => hall y (List.mem_cons_of_mem xs hy)
      refine ⟨fh :: hs, ?_, by simp [hlen], ?_⟩
      · show (match histChecked xs nb with
          | Except.error e => Except.error e
          | Except.ok h =>
              match histsFor nb rest with
              | Except.error e => Except.error e
              | Except.ok hs => Except.ok (h :: hs)) = Except.ok (fh :: hs)
        rw [hfh, hhs]
      · intro g hg
        rcases List.mem_cons.mp hg with h | h
        · subst h; exact hmass
        · exact hmassall g h

lemma checkArray_props (X : List (List ℚ)) (hX : checkArray X = true) :
    X ≠ [] ∧ 1 ≤ (X.headD []).length := by
  cases X with
  | nil => cases hX
  | cons r rs =>
      simp only [checkArray, Bool.and_eq_true, decide_eq_true_eq] at hX
      exact ⟨by simp, by simpa using hX.1⟩

lemma fit_ok (nb : ℤ) (α tol : ℚ) (st : ModelState) (X : List (List ℚ))
    (hnb : 1 ≤ nb) (hX : checkArray X = true) :
    (fit nb α tol st X).1 = Except.ok () ∧
      ∃ hs, (fit nb α tol st X).2.hists = some hs ∧
        hs.length = (X.headD []).length ∧ ∀ fh ∈ hs, massSum fh = 1 := by
  obtain ⟨hne, hf⟩ := checkArray_props X hX
  obtain ⟨hs, hhs, hlen, hmass⟩ :=
    histsFor_ok nb hnb (columns X) (columns_mem_ne_nil X hne)
  have hlen2 : hs.length = (X.headD []).length := by
    rw [hlen, columns_length]
  have hbuild : buildHists X nb = Except.ok hs := by rw [buildHists, hhs]
  have hcalc : calcScores hs nb α tol X
      = Except.ok (X.map (rowScore hs nb α tol (X.headD []).length)) := by
    unfold calcScores
    rw [if_neg (by omega)]
  unfold fit
  rw [if_neg (by simp [hX])]
  simp only [hbuild, hcalc]
  exact ⟨trivial, hs, rfl, hlen2, hmass⟩

lemma fit_ok_implies_nb (nb : ℤ) (α tol : ℚ) (st : ModelState)
    (X : List (List ℚ)) (hok : (fit nb α tol st X).1 = Except.ok ()) :
    1 ≤ nb := by
  by_contra hlt
  unfold fit at hok
  by_cases hX : checkArray X = false
  · rw [if_pos hX] at hok; cases hok
  · rw [if_neg hX] at hok
    have hX2 : checkArray X = true := by revert hX; cases checkArray X <;> simp
    obtain ⟨hne, hf⟩ := checkArray_props X hX2
    obtain ⟨c, rest, hcols⟩ : ∃ c rest, columns X = c :: rest := by
      have hlen : 0 < (columns X).length := by rw [columns_length]; omega
      cases hcols : columns X with
      | nil => rw [hcols] at hlen; simp at hlen
      | cons c rest => exact ⟨c, rest, rfl⟩
    have hhc : histChecked c nb = Except.error "bins must be a positive integer" := by
      unfold histChecked npHistogram
      rw [if_pos (by omega)]
    have hb : buildHists X nb = Except.error "bins must be a positive integer" := by
      rw [buildHists, hcols]
      show (match histChecked c nb with
        | Except.error e => Except.error e
        | Except.ok h =>
            match histsFor nb rest with
            | Except.error e => Except.error e
            | Except.ok hs => Except.ok (h :: hs)) = _
      rw [hhc]
    simp only [hb] at hok
    cases hok

/-! Claim theorems. -/

/-- C8: calling decision_function on an unfitted model (hist_ and bin_edges_
absent) returns the not-fitted error for every query matrix, including
invalid ones: check_is_fitted runs before check_array and before any score
computation. -/
theorem hbos_unfitted_decision_function_errors (nb : ℤ) (α tol : ℚ)
    (ds : Option (List ℝ)) (X : List (List ℚ)) :
    decision_function nb α tol ⟨none, ds⟩ X = Except.error "not fitted" := rfl

/-- C5 (amended): the constructor validates only alpha and tol:
it succeeds exactly when both lie in the open interval (0, 1), for every
value of n_bins, including non-positive ones; n_bins is never checked at
construction time. -/
theorem hbos_init_validates_alpha_tol_only (nb : ℤ) (alpha tol : ℚ) :
    hbosInit nb alpha tol = Except.ok (nb, alpha, tol)
      ↔ (0 < alpha ∧ alpha < 1 ∧ 0 < tol ∧ tol < 1) := by
  unfold hbosInit check_parameter
  by_cases h1 : (0 : ℚ) < alpha ∧ alpha < 1
  · rw [if_pos h1]
    by_cases h2 : (0 : ℚ) < tol ∧ tol < 1
    · rw [if_pos h2]
      refine ⟨fun _ => ⟨h1.1, h1.2, h2.1, h2.2⟩, fun _ => rfl⟩
    · rw [if_neg h2]
      exact ⟨fun hc => by simp at hc, fun hc => absurd ⟨hc.2.2.1, hc.2.2.2⟩ h2⟩
  · rw [if_neg h1]
    exact ⟨fun hc => by simp at hc, fun hc => absurd ⟨hc.1, hc.2.1⟩ h1⟩

/-- C5 counterexample: constructing with the non-positive n_bins = -5 (and
valid alpha, tol) raises no configuration error: construction succeeds. -/
theorem hbos_init_negative_bins_ok :
    hbosInit (-5) (1/2) (1/2) = Except.ok (-5, 1/2, 1/2) := by
  norm_num [hbosInit, check_parameter]

/-- C7: on a model whose parameters admitted an earlier successful fit
(which forces n_bins ≥ 1), any failing fit call fails inside the input
validator, before hist_, bin_edges_ or decision_scores_ are touched, so the
prior fitted state is returned unchanged; decision_function never writes
state at all in the model. -/
theorem hbos_failed_fit_preserves_state (nb : ℤ) (α tol : ℚ)
    (st0 : ModelState) (X0 : List (List ℚ)) (st : ModelState)
    (X : List (List ℚ)) (e : String)
    (hprior : (fit nb α tol st0 X0).1 = Except.ok ())
    (herr : (fit nb α tol st X).1 = Except.error e) :
    (fit nb α tol st X).2 = st := by
  have hnb := fit_ok_implies_nb nb α tol st0 X0 hprior
  by_cases hX : checkArray X = true
  · have hok := (fit_ok nb α tol st X hnb hX).1
    rw [hok] at herr; cases herr
  · unfold fit
    rw [if_pos (by revert hX; cases checkArray X <;> simp)]

/-- C3: every matrix accepted by the validator fits successfully for
n_bins ≥ 1 (the in-loop assertion never fires) and every fitted feature
histogram has total mass density times width summing to exactly 1, hence
within the stated absolute tolerance 0.1. -/
theorem hbos_density_mass_one (nb : ℤ) (α tol : ℚ) (st : ModelState)
    (X : List (List ℚ)) (hnb : 1 ≤ nb) (hX : checkArray X = true) :
    (fit nb α tol st X).1 = Except.ok () ∧
      ∀ hs, (fit nb α tol st X).2.hists = some hs →
        ∀ fh ∈ hs, massSum fh = 1 ∧ |massSum fh - 1| ≤ 1/10 := by
  obtain ⟨h1, hs, hhs, _, hmass⟩ := fit_ok nb α tol st X hnb hX
  refine ⟨h1, ?_⟩
  intro hs2 hhs2
  rw [hhs] at hhs2
  injection hhs2 with hhs2
  subst hhs2
  intro fh hfh
  have hm := hmass fh hfh
  exact ⟨hm, by rw [hm]; norm_num⟩

/-- Witness for C7 at a concrete model: a successful fit on [[0],[2]] with
n_bins = 1, then a failing fit on the empty matrix leaves the fitted state
untouched. -/
theorem hbos_failed_fit_preserves_state_witness :
    (fit 1 (1/2) (1/2) ⟨none, none⟩ [[0], [2]]).1 = Except.ok () ∧
    (fit 1 (1/2) (1/2) ⟨some [⟨[0, 2], [1/2]⟩], some []⟩ []).1
      = Except.error "input" ∧
    (fit 1 (1/2) (1/2) ⟨some [⟨[0, 2], [1/2]⟩], some []⟩ []).2
      = ⟨some [⟨[0, 2], [1/2]⟩], some []⟩ := by
  have h1 : (fit 1 (1/2) (1/2) (⟨none, none⟩ : ModelState) [[0], [2]]).1
      = Except.ok () := by
    norm_num [fit, checkArray, columns, buildHists, histsFor, histChecked,
      calcScores, npHistogram, histRange, listMin, listMax, binEdges, edgeAt,
      density, binCount, inBin, massSum, npDiff, List.range_succ,
      List.countP_cons, List.countP_nil, List.all_cons]
  have h2 : (fit 1 (1/2) (1/2)
      (⟨some [⟨[0, 2], [1/2]⟩], some []⟩ : ModelState) []).1
      = Except.error "input" := rfl
  exact ⟨h1, h2, hbos_failed_fit_preserves_state 1 (1/2) (1/2) ⟨none, none⟩
    [[0], [2]] ⟨some [⟨[0, 2], [1/2]⟩], some []⟩ [] "input" h1 h2⟩

/-- Witness for C3 at a concrete fit: two samples, one feature, one bin. -/
theorem hbos_density_mass_one_witness :
    (1 : ℤ) ≤ 1 ∧ checkArray [[0], [2]] = true ∧
    ((fit 1 (1/2) (1/2) ⟨none, none⟩ [[0], [2]]).1 = Except.ok () ∧
      ∀ hs, (fit 1 (1/2) (1/2) ⟨none, none⟩ [[0], [2]]).2.hists = some hs →
        ∀ fh ∈ hs, massSum fh = 1 ∧ |massSum fh - 1| ≤ 1/10) :=
  ⟨le_refl 1, by decide,
    hbos_density_mass_one 1 (1/2) (1/2) ⟨none, none⟩ [[0], [2]]
      (le_refl 1) (by decide)⟩

/-- C2: for a fitted feature and an in-range value, the score is the log of
the regularized density of the bin containing v under right-closed
semantics: bin_edges[b] < v ≤ bin_edges[b+1]; a value equal to the very
first edge belongs to the first bin (through the zero-distance boundary
branch); alpha is added to the density before the base-2 logarithm. -/
theorem hbos_in_range_bin_score (h : FeatureHist) (nb : ℤ) (α tol : ℚ)
    (hnb : 1 ≤ nb) (hα1 : 0 < α) (hα2 : α < 1) (ht1 : 0 < tol) (ht2 : tol < 1)
    (hE : h.edges.length = nb.toNat + 1) (hD : h.dens.length = nb.toNat)
    (hS : List.Chain' (· < ·) h.edges) :
    (∀ (v : ℚ) (b : ℕ), b < nb.toNat →
        h.edges.getD b 0 < v → v ≤ h.edges.getD (b + 1) 0 →
        featureScore h nb α tol v
          = Real.logb 2 ((h.dens.getD b 0 + α : ℚ) : ℝ)) ∧
    featureScore h nb α tol (h.edges.getD 0 0)
      = Real.logb 2 ((h.dens.getD 0 0 + α : ℚ) : ℝ) := by
  constructor
  · intro v b hb h1 h2
    exact fs_inbin h nb α tol v hnb hE hD hS b hb h1 h2
  · have hne := edges_ne_nil h nb hE
    have h0 : digitizeRight h.edges (h.edges.getD 0 0) = 0 :=
      digitize_below h.edges hS _ hne (le_refl _)
    have h1l : (1 : ℕ) < h.edges.length := by omega
    have hw : h.edges.getD 0 0 < h.edges.getD 1 0 := by
      rw [List.getD_eq_get h.edges 0 (by omega : (0:ℕ) < h.edges.length),
        List.getD_eq_get h.edges 0 h1l]
      exact chain_get_lt h.edges hS 0 1 (by omega) h1l
    have hp : (0 : ℚ) < (h.edges.getD 1 0 - h.edges.getD 0 0) * tol :=
      mul_pos (by linarith) ht1
    have hcond : h.edges.getD 0 0 - h.edges.getD 0 0
        ≤ (h.edges.getD 1 0 - h.edges.getD 0 0) * tol := by linarith
    simp only [featureScore, h0, if_pos rfl, if_pos hcond]
    exact outScore_getD h.dens α 0 (by omega)

/-- Witness for C2 at a concrete fitted feature with two bins. -/
theorem hbos_in_range_bin_score_witness :
    (0 : ℚ) < 1/2 ∧ List.Chain' (· < ·) [(0 : ℚ), 1, 2] ∧
    ((∀ (v : ℚ) (b : ℕ), b < (2 : ℤ).toNat →
        (FeatureHist.mk [0, 1, 2] [3/4, 1/4]).edges.getD b 0 < v →
        v ≤ (FeatureHist.mk [0, 1, 2] [3/4, 1/4]).edges.getD (b + 1) 0 →
        featureScore ⟨[0, 1, 2], [3/4, 1/4]⟩ 2 (1/2) (1/2) v
          = Real.logb 2
              (((FeatureHist.mk [0, 1, 2] [3/4, 1/4]).dens.getD b 0 + 1/2 : ℚ) : ℝ)) ∧
      featureScore ⟨[0, 1, 2], [3/4, 1/4]⟩ 2 (1/2) (1/2)
          ((FeatureHist.mk [0, 1, 2] [3/4, 1/4]).edges.getD 0 0)
        = Real.logb 2
            (((FeatureHist.mk [0, 1, 2] [3/4, 1/4]).dens.getD 0 0 + 1/2 : ℚ) : ℝ)) :=
  ⟨by norm_num, by norm_num [List.chain'_cons],
    hbos_in_range_bin_score ⟨[0, 1, 2], [3/4, 1/4]⟩ 2 (1/2) (1/2) (by decide)
      (by norm_num) (by norm_num) (by norm_num) (by norm_num) (by decide)
      (by decide) (by norm_num [List.chain'_cons])⟩

/-- C1: boundary policy of a fitted feature.  A value slightly below the
first edge (within tol of one bin width) scores with the first bin's
density, identically to the first bin's midpoint; a value farther below
scores with the minimum density over all bins, never lower than that
minimum-density score; symmetrically above the last edge with the last
bin's width and density. -/
theorem hbos_out_of_range_boundary_policy (h : FeatureHist) (nb : ℤ)
    (α tol : ℚ) (hnb : 1 ≤ nb) (hα1 : 0 < α) (hα2 : α < 1) (ht1 : 0 < tol)
    (ht2 : tol < 1) (hE : h.edges.length = nb.toNat + 1)
    (hD : h.dens.length = nb.toNat) (hS : List.Chain' (· < ·) h.edges)
    (hnn : ∀ d ∈ h.dens, 0 ≤ d) :
    (∀ v : ℚ, v < h.edges.getD 0 0 →
        h.edges.getD 0 0 - v ≤ tol * (h.edges.getD 1 0 - h.edges.getD 0 0) →
        featureScore h nb α tol v
            = Real.logb 2 ((h.dens.getD 0 0 + α : ℚ) : ℝ) ∧
          featureScore h nb α tol v
            = featureScore h nb α tol
                ((h.edges.getD 0 0 + h.edges.getD 1 0) / 2)) ∧
    (∀ v : ℚ, v < h.edges.getD 0 0 →
        tol * (h.edges.getD 1 0 - h.edges.getD 0 0) < h.edges.getD 0 0 - v →
        featureScore h nb α tol v
            = Real.logb 2 ((listMin h.dens + α : ℚ) : ℝ) ∧
          ∀ b : ℕ, b < nb.toNat →
            featureScore h nb α tol v
              ≤ Real.logb 2 ((h.dens.getD b 0 + α : ℚ) : ℝ)) ∧
    (∀ v : ℚ, h.edges.getD nb.toNat 0 < v →
        v - h.edges.getD nb.toNat 0
          ≤ tol * (h.edges.getD nb.toNat 0 - h.edges.getD (nb.toNat - 1) 0) →
        featureScore h nb α tol v
          = Real.logb 2 ((h.dens.getD (nb.toNat - 1) 0 + α : ℚ) : ℝ)) ∧
    (∀ v : ℚ, h.edges.getD nb.toNat 0 < v →
        tol * (h.edges.getD nb.toNat 0 - h.edges.getD (nb.toNat - 1) 0)
          < v - h.edges.getD nb.toNat 0 →
        featureScore h nb α tol v
          = Real.logb 2 ((listMin h.dens + α : ℚ) : ℝ)) := by
  have hDne : h.dens ≠ [] := by intro hc; rw [hc] at hD; simp at hD; omega
  have h1l : (1 : ℕ) < h.edges.length := by omega
  have hlt01 : h.edges.getD 0 0 < h.edges.getD 1 0 := by
    rw [List.getD_eq_get h.edges 0 (by omega : (0 : ℕ) < h.edges.length),
      List.getD_eq_get h.edges 0 h1l]
    exact chain_get_lt h.edges hS 0 1 (by omega) h1l
  refine ⟨?_, ?_, ?_, ?_⟩
  · intro v hv hnear
    have hnear2 : h.edges.getD 0 0 - v
        ≤ (h.edges.getD 1 0 - h.edges.getD 0 0) * tol := by
      rw [mul_comm]; linarith
    have hs1 : featureScore h nb α tol v
        = Real.logb 2 ((h.dens.getD 0 0 + α : ℚ) : ℝ) :=
      fs_below_near h nb α tol v hnb hE hD hS hv hnear2
    have hs2 : featureScore h nb α tol
        ((h.edges.getD 0 0 + h.edges.getD 1 0) / 2)
        = Real.logb 2 ((h.dens.getD 0 0 + α : ℚ) : ℝ) :=
      fs_inbin h nb α tol _ hnb hE hD hS 0 (by omega) (by linarith) (by linarith)
    exact ⟨hs1, by rw [hs1, hs2]⟩
  · intro v hv hfar
    have hs1 : featureScore h nb α tol v
        = Real.logb 2 ((listMin h.dens + α : ℚ) : ℝ) :=
      fs_below_far h nb α tol v hnb hE hD hS hnn hα1 hv
        (by rw [mul_comm]; linarith)
    refine ⟨hs1, ?_⟩
    intro b hb
    rw [hs1]
    have hmem : h.dens.getD b 0 ∈ h.dens := by
      rw [List.getD_eq_get h.dens 0 (by omega : b < h.dens.length)]
      exact List.get_mem _ _ _
    exact logbq_le_logbq _ _ α
      (hnn _ (listMin_mem h.dens hDne)) hα1 (listMin_le h.dens _ hmem)
  · intro v hv hnear
    exact fs_above_near h nb α tol v hnb hE hD hS hv (by rw [mul_comm] at hnear; linarith)
  · intro v hv hfar
    exact fs_above_far h nb α tol v hnb hE hD hS hnn hα1 hv
      (by rw [mul_comm] at hfar; linarith)

/-- Witness for C1 at a concrete fitted feature: the near-below value -1/5
uses the first bin's density and matches the midpoint score; the far-below
value -1 uses the minimum density. -/
theorem hbos_out_of_range_boundary_policy_witness :
    ((0 : ℚ) < 1/2 ∧ (1 : ℤ) ≤ 2) ∧
    (featureScore ⟨[0, 1, 2], [3/4, 1/4]⟩ 2 (1/2) (1/2) (-1/5)
        = Real.logb 2 ((3/4 + 1/2 : ℚ) : ℝ) ∧
      featureScore ⟨[0, 1, 2], [3/4, 1/4]⟩ 2 (1/2) (1/2) (-1/5)
        = featureScore ⟨[0, 1, 2], [3/4, 1/4]⟩ 2 (1/2) (1/2) ((0 + 1) / 2)) ∧
    featureScore ⟨[0, 1, 2], [3/4, 1/4]⟩ 2 (1/2) (1/2) (-1)
      = Real.logb 2 ((listMin [3/4, 1/4] + 1/2 : ℚ) : ℝ) := by
  have H := hbos_out_of_range_boundary_policy ⟨[0, 1, 2], [3/4, 1/4]⟩ 2
    (1/2) (1/2) (by decide) (by norm_num) (by norm_num) (by norm_num)
    (by norm_num) (by decide) (by decide) (by norm_num [List.chain'_cons])
    (by norm_num)
  refine ⟨⟨by norm_num, by decide⟩, ?_, ?_⟩
  · exact H.1 (-1/5) (by norm_num) (by norm_num)
  · exact (H.2.1 (-1) (by norm_num) (by norm_num)).1

/-- C9 (amended): for two values falling in distinct bins of a fitted
feature, the value in the bin with the LOWER density receives the LOWER raw
per-feature score (log2 is increasing, so raw score ordering follows
density ordering); only the final sign flip of the decision score inverts
the ordering so that lower density means more outlying. -/
theorem hbos_score_monotone_in_density (h : FeatureHist) (nb : ℤ)
    (α tol : ℚ) (hnb : 1 ≤ nb) (hα1 : 0 < α)
    (hE : h.edges.length = nb.toNat + 1) (hD : h.dens.length = nb.toNat)
    (hS : List.Chain' (· < ·) h.edges) (hnn : ∀ d ∈ h.dens, 0 ≤ d)
    (b1 b2 : ℕ) (hb1 : b1 < nb.toNat) (hb2 : b2 < nb.toNat) (v1 v2 : ℚ)
    (hv1a : h.edges.getD b1 0 < v1) (hv1b : v1 ≤ h.edges.getD (b1 + 1) 0)
    (hv2a : h.edges.getD b2 0 < v2) (hv2b : v2 ≤ h.edges.getD (b2 + 1) 0)
    (hdlt : h.dens.getD b1 0 < h.dens.getD b2 0) :
    featureScore h nb α tol v1 < featureScore h nb α tol v2 := by
  rw [fs_inbin h nb α tol v1 hnb hE hD hS b1 hb1 hv1a hv1b,
    fs_inbin h nb α tol v2 hnb hE hD hS b2 hb2 hv2a hv2b]
  have hmem : h.dens.getD b1 0 ∈ h.dens := by
    rw [List.getD_eq_get h.dens 0 (by omega : b1 < h.dens.length)]
    exact List.get_mem _ _ _
  exact logbq_lt_logbq _ _ α (hnn _ hmem) hα1 hdlt

/-- Witness for C9 (amended) at a concrete fitted feature: 3/2 lies in the
low-density bin, 1/2 in the high-density bin, and the former scores lower. -/
theorem hbos_score_monotone_in_density_witness :
    ((0 : ℚ) < 1/2 ∧ (1 : ℚ)/4 < 3/4) ∧
    featureScore ⟨[0, 1, 2], [3/4, 1/4]⟩ 2 (1/2) (1/2) (3/2)
      < featureScore ⟨[0, 1, 2], [3/4, 1/4]⟩ 2 (1/2) (1/2) (1/2) :=
  ⟨⟨by norm_num, by norm_num⟩,
    hbos_score_monotone_in_density ⟨[0, 1, 2], [3/4, 1/4]⟩ 2 (1/2) (1/2)
      (by decide) (by norm_num) (by decide) (by decide)
      (by norm_num [List.chain'_cons]) (by norm_num) 1 0 (by decide)
      (by decide) (3/2) (1/2) (by norm_num) (by norm_num) (by norm_num)
      (by norm_num) (by norm_num)⟩

/-- C9 counterexample: on the fitted two-bin feature produced by
np.histogram on [0, 1/2, 9/10, 2], the value 3/2 lies in the bin with the
lower density 1/4 yet receives a STRICTLY LOWER raw per-feature score than
the value 1/2 lying in the bin with the higher density 3/4, refuting the
claim that the lower-density bin always yields the higher raw score before
the sign flip. -/
theorem hbos_lower_density_lower_score_example :
    npHistogram [0, 1/2, 9/10, 2] 2 = Except.ok ⟨[0, 1, 2], [3/4, 1/4]⟩ ∧
    featureScore ⟨[0, 1, 2], [3/4, 1/4]⟩ 2 (1/2) (1/2) (3/2)
      < featureScore ⟨[0, 1, 2], [3/4, 1/4]⟩ 2 (1/2) (1/2) (1/2) := by
  constructor
  · have h2 : (2 : ℤ).toNat = 2 := rfl
    norm_num [npHistogram, histRange, listMin, listMax, binEdges, edgeAt,
      density, binCount, inBin, h2, List.range_succ,
      List.countP_cons, List.countP_nil]
  · have he1 : featureScore ⟨[0, 1, 2], [3/4, 1/4]⟩ 2 (1/2) (1/2) (3/2)
        = Real.logb 2 ((3/4 : ℚ) : ℝ) := by
      norm_num [featureScore, digitizeRight, outScore, List.countP_cons,
        List.countP_nil]
    have he2 : featureScore ⟨[0, 1, 2], [3/4, 1/4]⟩ 2 (1/2) (1/2) (1/2)
        = Real.logb 2 ((5/4 : ℚ) : ℝ) := by
      norm_num [featureScore, digitizeRight, outScore, List.countP_cons,
        List.countP_nil]
    rw [he1, he2]
    apply Real.logb_lt_logb one_lt_two
    · rw [show ((3/4 : ℚ) : ℝ) = (3/4 : ℝ) by norm_num]; norm_num
    · rw [show ((3/4 : ℚ) : ℝ) = (3/4 : ℝ) by norm_num,
        show ((5/4 : ℚ) : ℝ) = (5/4 : ℝ) by norm_num]
      norm_num

/-- Every score assigned by featureScore is the log-score of one of the
bins of the feature, whatever the query value is. -/
lemma fs_mem (h : FeatureHist) (nb : ℤ) (α tol v : ℚ) (hnb : 1 ≤ nb)
    (hE : h.edges.length = nb.toNat + 1) (hD : h.dens.length = nb.toNat)
    (hnn : ∀ d ∈ h.dens, 0 ≤ d) (hα : 0 < α) :
    ∃ b, b < nb.toNat ∧
      featureScore h nb α tol v = Real.logb 2 ((h.dens.getD b 0 + α : ℚ) : ℝ) := by
  have hDne : h.dens ≠ [] := by intro hc; rw [hc] at hD; simp at hD; omega
  have hminb : ∃ b, b < nb.toNat ∧ h.dens.getD b 0 = listMin h.dens := by
    obtain ⟨i, hi⟩ := List.mem_iff_get.mp (listMin_mem h.dens hDne)
    obtain ⟨bi, hbi⟩ := i
    exact ⟨bi, by omega, by rw [List.getD_eq_get h.dens 0 hbi]; exact hi⟩
  by_cases h0 : digitizeRight h.edges v = 0
  · by_cases hnear : h.edges.getD 0 0 - v
        ≤ (h.edges.getD 1 0 - h.edges.getD 0 0) * tol
    · refine ⟨0, by omega, ?_⟩
      simp only [featureScore, h0, if_pos rfl, if_pos hnear]
      exact outScore_getD h.dens α 0 (by omega)
    · obtain ⟨b, hb, hbe⟩ := hminb
      refine ⟨b, hb, ?_⟩
      simp only [featureScore, h0, if_pos rfl, if_true, if_neg hnear]
      rw [listMinR_outScore h.dens α hDne hnn hα, hbe]
  · by_cases hn1 : (digitizeRight h.edges v : ℤ) = nb + 1
    · by_cases hnear : v - h.edges.getD (h.edges.length - 1) 0
          ≤ (h.edges.getD (h.edges.length - 1) 0
              - h.edges.getD (h.edges.length - 2) 0) * tol
      · refine ⟨nb.toNat - 1, by omega, ?_⟩
        simp only [featureScore, if_neg h0, if_pos hn1, if_pos hnear]
        rw [show (nb - 1).toNat = nb.toNat - 1 by omega]
        exact outScore_getD h.dens α (nb.toNat - 1) (by omega)
      · obtain ⟨b, hb, hbe⟩ := hminb
        refine ⟨b, hb, ?_⟩
        simp only [featureScore, if_neg h0, if_pos hn1, if_true, if_neg hnear]
        rw [listMinR_outScore h.dens α hDne hnn hα, hbe]
    · have hle : digitizeRight h.edges v ≤ nb.toNat + 1 := by
        have := digitize_le_length h.edges v
        omega
      refine ⟨digitizeRight h.edges v - 1, by omega, ?_⟩
      simp only [featureScore, if_neg h0, if_neg hn1]
      exact outScore_getD h.dens α _ (by omega)

lemma logb_alpha_le (d α : ℚ) (hd : 0 ≤ d) (hα : 0 < α) :
    Real.logb 2 ((α : ℚ) : ℝ) ≤ Real.logb 2 ((d + α : ℚ) : ℝ) := by
  calc Real.logb 2 ((α : ℚ) : ℝ)
      = Real.logb 2 ((0 + α : ℚ) : ℝ) := by norm_num
    _ ≤ Real.logb 2 ((d + α : ℚ) : ℝ) := logbq_le_logbq 0 d α (le_refl 0) hα hd

lemma mul_length_le_sum (c : ℝ) :
    ∀ l : List ℝ, (∀ x ∈ l, c ≤ x) → c * l.length ≤ l.sum := by
  intro l
  induction l with
  | nil => intro _; simp
  | cons x l ih =>
      intro h
      have hx := h x (List.mem_cons_self x l)
      have hl := ih fun y hy => h y (List.mem_cons_of_mem x hy)
      simp only [List.sum_cons, List.length_cons]
      push_cast
      linarith

/-- C10 (amended): for every fitted model, every per-feature contribution is
exactly one of the n_bins values log2(hist[b] + alpha); hence every
contribution is at least log2(alpha); all points beyond the tolerance on
the same side of a feature's range receive one identical saturated
contribution; and every per-sample decision score is bounded ABOVE by
n_features * |log2(alpha)| (the magnitude is not bounded below by this
quantity: dense bins can push individual scores past it). -/
theorem hbos_score_saturation_invariants (hs : List FeatureHist) (nb : ℤ)
    (α tol : ℚ) (hnb : 1 ≤ nb) (hα1 : 0 < α) (hα2 : α < 1)
    (hall : ∀ fh ∈ hs, fh.edges.length = nb.toNat + 1 ∧
        fh.dens.length = nb.toNat ∧ List.Chain' (· < ·) fh.edges ∧
        ∀ d ∈ fh.dens, 0 ≤ d) :
    (∀ fh ∈ hs, ∀ v : ℚ, ∃ b, b < nb.toNat ∧
        featureScore fh nb α tol v
          = Real.logb 2 ((fh.dens.getD b 0 + α : ℚ) : ℝ)) ∧
    (∀ fh ∈ hs, ∀ v : ℚ,
        Real.logb 2 ((α : ℚ) : ℝ) ≤ featureScore fh nb α tol v) ∧
    (∀ fh ∈ hs, ∀ v1 v2 : ℚ,
        v1 < fh.edges.getD 0 0 →
        ¬ fh.edges.getD 0 0 - v1
          ≤ (fh.edges.getD 1 0 - fh.edges.getD 0 0) * tol →
        v2 < fh.edges.getD 0 0 →
        ¬ fh.edges.getD 0 0 - v2
          ≤ (fh.edges.getD 1 0 - fh.edges.getD 0 0) * tol →
        featureScore fh nb α tol v1 = featureScore fh nb α tol v2) ∧
    (∀ fh ∈ hs, ∀ v1 v2 : ℚ,
        fh.edges.getD nb.toNat 0 < v1 →
        ¬ v1 - fh.edges.getD nb.toNat 0
          ≤ (fh.edges.getD nb.toNat 0 - fh.edges.getD (nb.toNat - 1) 0) * tol →
        fh.edges.getD nb.toNat 0 < v2 →
        ¬ v2 - fh.edges.getD nb.toNat 0
          ≤ (fh.edges.getD nb.toNat 0 - fh.edges.getD (nb.toNat - 1) 0) * tol →
        featureScore fh nb α tol v1 = featureScore fh nb α tol v2) ∧
    (∀ (nf : ℕ) (row : List ℚ), nf ≤ hs.length →
        rowScore hs nb α tol nf row
          ≤ (nf : ℝ) * |Real.logb 2 ((α : ℚ) : ℝ)|) := by
  have hbound : ∀ fh ∈ hs, ∀ v : ℚ,
      Real.logb 2 ((α : ℚ) : ℝ) ≤ featureScore fh nb α tol v := by
    intro fh hfh v
    obtain ⟨hE, hD, hS, hnn⟩ := hall fh hfh
    obtain ⟨b, hb, hbe⟩ := fs_mem fh nb α tol v hnb hE hD hnn hα1
    rw [hbe]
    refine logb_alpha_le _ α ?_ hα1
    have hmem : fh.dens.getD b 0 ∈ fh.dens := by
      rw [List.getD_eq_get fh.dens 0 (by omega : b < fh.dens.length)]
      exact List.get_mem _ _ _
    exact hnn _ hmem
  refine ⟨?_, hbound, ?_, ?_, ?_⟩
  · intro fh hfh v
    obtain ⟨hE, hD, _, hnn⟩ := hall fh hfh
    exact fs_mem fh nb α tol v hnb hE hD hnn hα1
  · intro fh hfh v1 v2 h1 h2 h3 h4
    obtain ⟨hE, hD, hS, hnn⟩ := hall fh hfh
    rw [fs_below_far fh nb α tol v1 hnb hE hD hS hnn hα1 h1 h2,
      fs_below_far fh nb α tol v2 hnb hE hD hS hnn hα1 h3 h4]
  · intro fh hfh v1 v2 h1 h2 h3 h4
    obtain ⟨hE, hD, hS, hnn⟩ := hall fh hfh
    rw [fs_above_far fh nb α tol v1 hnb hE hD hS hnn hα1 h1 h2,
      fs_above_far fh nb α tol v2 hnb hE hD hS hnn hα1 h3 h4]
  · intro nf row hnf
    unfold rowScore
    have hforall : ∀ x ∈ (List.range nf).map fun i =>
        featureScore (hs.getD i ⟨[], []⟩) nb α tol (row.getD i 0),
        Real.logb 2 ((α : ℚ) : ℝ) ≤ x := by
      intro x hx
      obtain ⟨i, hi, rfl⟩ := List.mem_map.mp hx
      have hiL : i < hs.length := by
        have := List.mem_range.mp hi; omega
      have hmem : hs.getD i ⟨[], []⟩ ∈ hs := by
        rw [List.getD_eq_get hs _ hiL]
        exact List.get_mem _ _ _
      exact hbound _ hmem _
    have hsum := mul_length_le_sum (Real.logb 2 ((α : ℚ) : ℝ)) _ hforall
    have hlen : ((List.range nf).map fun i =>
        featureScore (hs.getD i ⟨[], []⟩) nb α tol (row.getD i 0)).length
        = nf := by simp
    rw [hlen] at hsum
    have habs : |Real.logb 2 ((α : ℚ) : ℝ)|
        = -(Real.logb 2 ((α : ℚ) : ℝ)) := by
      apply abs_of_neg
      apply Real.logb_neg one_lt_two
      · exact_mod_cast hα1
      · exact_mod_cast hα2
    rw [habs]
    linarith

/-- Witness for C10 (amended) on a concrete one-feature fitted model with
the far-out query value 100. -/
theorem hbos_score_saturation_invariants_witness :
    ((0 : ℚ) < 1/2 ∧ (1 : ℤ) ≤ 2) ∧
    (∃ b, b < (2 : ℤ).toNat ∧
        featureScore ⟨[0, 1, 2], [3/4, 1/4]⟩ 2 (1/2) (1/2) 100
          = Real.logb 2 (([(3 : ℚ)/4, 1/4].getD b 0 + 1/2 : ℚ) : ℝ)) ∧
    Real.logb 2 ((1/2 : ℚ) : ℝ)
      ≤ featureScore ⟨[0, 1, 2], [3/4, 1/4]⟩ 2 (1/2) (1/2) 100 ∧
    rowScore [⟨[0, 1, 2], [3/4, 1/4]⟩] 2 (1/2) (1/2) 1 [100]
      ≤ ((1 : ℕ) : ℝ) * |Real.logb 2 ((1/2 : ℚ) : ℝ)| := by
  have hall : ∀ fh ∈ [(⟨[0, 1, 2], [3/4, 1/4]⟩ : FeatureHist)],
      fh.edges.length = (2 : ℤ).toNat + 1 ∧ fh.dens.length = (2 : ℤ).toNat ∧
      List.Chain' (· < ·) fh.edges ∧ ∀ d ∈ fh.dens, 0 ≤ d := by
    intro fh hfh
    rw [List.mem_singleton.mp hfh]
    exact ⟨by decide, by decide, by norm_num [List.chain'_cons], by norm_num⟩
  have H := hbos_score_saturation_invariants [⟨[0, 1, 2], [3/4, 1/4]⟩] 2
    (1/2) (1/2) (by decide) (by norm_num) (by norm_num) hall
  refine ⟨⟨by norm_num, by decide⟩, ?_, ?_, ?_⟩
  · exact H.1 _ (List.mem_singleton.mpr rfl) 100
  · exact H.2.1 _ (List.mem_singleton.mpr rfl) 100
  · exact H.2.2.2.2 1 [100] (by decide)

/-- C10 counterexample: a legitimately fitted one-feature model (data 0 and
1/10, one bin) whose density is 10; with alpha = 1/2 the sample 1/20 gets
decision score -(log2 10.5) of magnitude over 3, strictly exceeding
n_features * |log2 alpha| = 1, so the claimed magnitude bound fails. -/
theorem hbos_score_bound_violated :
    npHistogram [0, 1/10] 1 = Except.ok ⟨[0, 1/10], [10]⟩ ∧
    ((1 : ℕ) : ℝ) * |Real.logb 2 ((1/2 : ℚ) : ℝ)|
      < |rowScore [⟨[0, 1/10], [10]⟩] 1 (1/2) (1/2) 1 [1/20]| := by
  constructor
  · norm_num [npHistogram, histRange, listMin, listMax, binEdges, edgeAt,
      density, binCount, inBin, List.range_succ, List.countP_cons,
      List.countP_nil]
  · have hfs : featureScore ⟨[0, 1/10], [10]⟩ 1 (1/2) (1/2) (1/20)
        = Real.logb 2 ((21/2 : ℚ) : ℝ) := by
      norm_num [featureScore, digitizeRight, outScore, List.countP_cons,
        List.countP_nil]
    have hrow : rowScore [⟨[0, 1/10], [10]⟩] 1 (1/2) (1/2) 1 [1/20]
        = -(Real.logb 2 ((21/2 : ℚ) : ℝ)) := by
      rw [rowScore]
      norm_num [List.range_succ, hfs]
    rw [hrow]
    have h1 : (1 : ℝ) < Real.logb 2 ((21/2 : ℚ) : ℝ) := by
      rw [show ((21/2 : ℚ) : ℝ) = (21/2 : ℝ) by norm_num,
        Real.lt_logb_iff_rpow_lt one_lt_two (by norm_num : (0 : ℝ) < 21/2),
        Real.rpow_one]
      norm_num
    have h2 : |Real.logb 2 ((1/2 : ℚ) : ℝ)| = 1 := by
      rw [show ((1/2 : ℚ) : ℝ) = ((2 : ℝ))⁻¹ by norm_num, Real.logb_inv,
        Real.logb_self_eq_one one_lt_two]
      norm_num
    rw [h2, abs_neg, abs_of_pos (by linarith)]
    norm_num
    linarith

/-- C6 (amended): on a fitted model with a validated query matrix,
decision_function raises an error exactly when the query has MORE features
than were fitted (the feature loop hits a missing histogram column); with
at most as many features it returns one score per query row with no error
path, the fewer-features case silently scoring over the leading features
only.  The evaluation is a pure function of the query and the fitted
state. -/
theorem hbos_feature_count_error_iff (hs : List FeatureHist) (nb : ℤ)
    (α tol : ℚ) (ds : Option (List ℝ)) (X : List (List ℚ))
    (hX : checkArray X = true) :
    ((∃ e, decision_function nb α tol ⟨some hs, ds⟩ X = Except.error e)
        ↔ hs.length < (X.headD []).length) ∧
    ((X.headD []).length ≤ hs.length →
      ∃ ys, decision_function nb α tol ⟨some hs, ds⟩ X = Except.ok ys ∧
        ys.length = X.length) := by
  have hdf : decision_function nb α tol ⟨some hs, ds⟩ X
      = calcScores hs nb α tol X := by
    show (if checkArray X = false then Except.error "input"
        else calcScores hs nb α tol X) = calcScores hs nb α tol X
    rw [if_neg (by simp [hX])]
  constructor
  · constructor
    · rintro ⟨e, he⟩
      rw [hdf] at he
      unfold calcScores at he
      by_cases hlt : hs.length < (X.headD []).length
      · exact hlt
      · rw [if_neg hlt] at he; cases he
    · intro hlt
      rw [hdf]
      unfold calcScores
      rw [if_pos hlt]
      exact ⟨_, rfl⟩
  · intro hle
    rw [hdf]
    unfold calcScores
    rw [if_neg (by omega)]
    exact ⟨_, rfl, by simp⟩

/-- Witness for C6 (amended) on a two-feature fitted model: a three-feature
query errors, a two-feature query yields one score per row. -/
theorem hbos_feature_count_error_iff_witness :
    checkArray [[5, 6, 7]] = true ∧ checkArray [[5, 6]] = true ∧
    (∃ e, decision_function 1 (1/2) (1/2)
        ⟨some [⟨[0, 4], [1/4]⟩, ⟨[0, 4], [1/4]⟩], none⟩ [[5, 6, 7]]
      = Except.error e) ∧
    (∃ ys, decision_function 1 (1/2) (1/2)
        ⟨some [⟨[0, 4], [1/4]⟩, ⟨[0, 4], [1/4]⟩], none⟩ [[5, 6]]
      = Except.ok ys ∧ ys.length = 1) := by
  have H1 := hbos_feature_count_error_iff
    [⟨[0, 4], [1/4]⟩, ⟨[0, 4], [1/4]⟩] 1 (1/2) (1/2) none [[5, 6, 7]]
    (by decide)
  have H2 := hbos_feature_count_error_iff
    [⟨[0, 4], [1/4]⟩, ⟨[0, 4], [1/4]⟩] 1 (1/2) (1/2) none [[5, 6]]
    (by decide)
  exact ⟨by decide, by decide, H1.1.mpr (by decide), H2.2 (by decide)⟩

/-- C6 counterexample: a model genuinely fitted on a two-feature matrix,
then queried with a one-feature matrix: no validation error is raised; the
call succeeds, scoring the single query feature against the first fitted
histogram, contradicting the claimed feature-count validation error. -/
theorem hbos_fewer_features_no_error :
    (fit 1 (1/2) (1/2) ⟨none, none⟩ [[0, 0], [4, 4]]).1 = Except.ok () ∧
    (fit 1 (1/2) (1/2) ⟨none, none⟩ [[0, 0], [4, 4]]).2.hists
      = some [⟨[0, 4], [1/4]⟩, ⟨[0, 4], [1/4]⟩] ∧
    decision_function 1 (1/2) (1/2)
        ⟨some [⟨[0, 4], [1/4]⟩, ⟨[0, 4], [1/4]⟩], none⟩ [[2]]
      = Except.ok [-(Real.logb 2 ((3/4 : ℚ) : ℝ))] := by
  refine ⟨?_, ?_, ?_⟩
  · norm_num [fit, checkArray, columns, buildHists, histsFor, histChecked,
      calcScores, npHistogram, histRange, listMin, listMax, binEdges, edgeAt,
      density, binCount, inBin, massSum, npDiff, List.range_succ,
      List.countP_cons, List.countP_nil, List.all_cons]
  · norm_num [fit, checkArray, columns, buildHists, histsFor, histChecked,
      calcScores, npHistogram, histRange, listMin, listMax, binEdges, edgeAt,
      density, binCount, inBin, massSum, npDiff, List.range_succ,
      List.countP_cons, List.countP_nil, List.all_cons]
  · norm_num [decision_function, checkArray, calcScores, rowScore,
      featureScore, digitizeRight, outScore, List.range_succ,
      List.countP_cons, List.countP_nil]

/-! Degenerate (constant-feature) lemmas. -/

lemma foldlMin_self (v : ℚ) : ∀ k : ℕ, (List.replicate k v).foldl min v = v := by
  intro k
  induction k with
  | zero => rfl
  | succ k ih => simpa [List.replicate_succ, min_self] using ih

lemma foldlMax_self (v : ℚ) : ∀ k : ℕ, (List.replicate k v).foldl max v = v := by
  intro k
  induction k with
  | zero => rfl
  | succ k ih => simpa [List.replicate_succ, max_self] using ih

lemma listMin_replicate (v : ℚ) (m : ℕ) (hm : 1 ≤ m) :
    listMin (List.replicate m v) = v := by
  cases m with
  | zero => omega
  | succ m => simp [List.replicate_succ, listMin, foldlMin_self]

lemma listMax_replicate (v : ℚ) (m : ℕ) (hm : 1 ≤ m) :
    listMax (List.replicate m v) = v := by
  cases m with
  | zero => omega
  | succ m => simp [List.replicate_succ, listMax, foldlMax_self]

lemma histRange_replicate (v : ℚ) (m : ℕ) (hm : 1 ≤ m) :
    histRange (List.replicate m v) = (v - 1/2, v + 1/2) := by
  unfold histRange
  rw [listMin_replicate v m hm, listMax_replicate v m hm, if_pos rfl]

lemma npHistogram_single (v : ℚ) :
    npHistogram [v] 1 = Except.ok ⟨[v - 1/2, v + 1/2], [1]⟩ := by
  unfold npHistogram
  rw [if_neg (by omega)]
  rw [show ([v] : List ℚ) = List.replicate 1 v from rfl,
    histRange_replicate v 1 (le_refl 1)]
  simp only [Except.ok.injEq, FeatureHist.mk.injEq]
  constructor
  · norm_num [binEdges, edgeAt, List.range_succ]
    ring
  · norm_num [density, binCount, inBin, edgeAt, List.range_succ,
      List.countP_cons, List.countP_nil]
    intro h
    linarith

lemma featureScore_single (v α tol : ℚ) :
    featureScore ⟨[v - 1/2, v + 1/2], [1]⟩ 1 α tol v
      = Real.logb 2 ((1 + α : ℚ) : ℝ) := by
  have hd : digitizeRight [v - 1/2, v + 1/2] v = 1 := by
    norm_num [digitizeRight, List.countP_cons, List.countP_nil]
  simp only [featureScore, hd, if_neg (by omega : ¬ (1 : ℕ) = 0)]
  rw [if_neg (by norm_num), outScore_getD [1] α 0 (by norm_num)]
  norm_num

/-- C4: a constant-valued feature is fitted without error for any
n_bins ≥ 1: numpy's degenerate-range policy widens the range to
(v - 1/2, v + 1/2), every bin gets the positive width 1/n_bins, and the
densities are well-defined rationals of total mass 1 (no NaN or infinity
is possible in exact arithmetic).  In particular the single-sample fit
with n_bins = 1 succeeds, producing the histogram with edges
[v - 1/2, v + 1/2] and density [1], and scoring that sample yields the
finite value -(log2 (1 + alpha)). -/
theorem hbos_degenerate_feature_safe (v : ℚ) (m : ℕ) (nb : ℤ) (α tol : ℚ)
    (st : ModelState) (hm : 1 ≤ m) (hnb : 1 ≤ nb) :
    (∃ fh, npHistogram (List.replicate m v) nb = Except.ok fh ∧
        massSum fh = 1 ∧
        npDiff fh.edges = List.replicate nb.toNat ((1 : ℚ) / (nb.toNat : ℚ)) ∧
        (0 : ℚ) < 1 / (nb.toNat : ℚ)) ∧
    npHistogram [v] 1 = Except.ok ⟨[v - 1/2, v + 1/2], [1]⟩ ∧
    (fit 1 α tol st [[v]]).1 = Except.ok () ∧
    decision_function 1 α tol ⟨some [⟨[v - 1/2, v + 1/2], [1]⟩], none⟩ [[v]]
      = Except.ok [-(Real.logb 2 ((1 + α : ℚ) : ℝ))] := by
  have hrep_ne : List.replicate m v ≠ [] := by
    intro hc
    have := congrArg List.length hc
    simp at this
    omega
  have hok : npHistogram (List.replicate m v) nb
      = Except.ok ⟨binEdges (v - 1/2) (v + 1/2) nb.toNat,
          (List.range nb.toNat).map
            (density (v - 1/2) (v + 1/2) nb.toNat (List.replicate m v))⟩ := by
    unfold npHistogram
    rw [if_neg (by omega), histRange_replicate v m hm]
  have hmass := massSum_npHistogram _ nb hrep_ne _ hok
  have htn : (0 : ℚ) < (nb.toNat : ℚ) := by
    exact_mod_cast show 0 < nb.toNat by omega
  refine ⟨⟨_, hok, hmass, ?_, div_pos one_pos htn⟩, npHistogram_single v, ?_, ?_⟩
  · show npDiff (binEdges (v - 1/2) (v + 1/2) nb.toNat) = _
    rw [npDiff_binEdges,
      show ((v + 1/2) - (v - 1/2) : ℚ) = 1 by ring]
  · exact (fit_ok 1 α tol st [[v]] (le_refl 1) rfl).1
  · norm_num [decision_function, checkArray, calcScores, rowScore,
      List.range_succ, featureScore_single]

/-- Witness for C4 at the constant value 7, three samples, two bins, and
the single-sample fit. -/
theorem hbos_degenerate_feature_safe_witness :
    (1 : ℕ) ≤ 3 ∧ (1 : ℤ) ≤ 2 ∧
    ((∃ fh, npHistogram (List.replicate 3 (7 : ℚ)) 2 = Except.ok fh ∧
        massSum fh = 1 ∧
        npDiff fh.edges
          = List.replicate (2 : ℤ).toNat ((1 : ℚ) / (((2 : ℤ).toNat : ℕ) : ℚ)) ∧
        (0 : ℚ) < 1 / (((2 : ℤ).toNat : ℕ) : ℚ)) ∧
      npHistogram [(7 : ℚ)] 1 = Except.ok ⟨[7 - 1/2, 7 + 1/2], [1]⟩ ∧
      (fit 1 (1/2) (1/2) ⟨none, none⟩ [[(7 : ℚ)]]).1 = Except.ok () ∧
      decision_function 1 (1/2) (1/2)
          ⟨some [⟨[7 - 1/2, 7 + 1/2], [1]⟩], none⟩ [[(7 : ℚ)]]
        = Except.ok [-(Real.logb 2 ((1 + 1/2 : ℚ) : ℝ))]) :=
  ⟨by norm_num, by norm_num,
    hbos_degenerate_feature_safe 7 3 2 (1/2) (1/2) ⟨none, none⟩
      (by norm_num) (by norm_num)⟩
